import Mathlib

/-!
A verification development for the structural quantum-circuit core described
in `spec.md` of this repository.  The repository's `src/` tree contains only
an example notebook exercising the library (`pytket`); the library code
itself is not part of the tree, so every definition below is modelled from
the specification's words (each doc comment says so explicitly).

Circuits are modelled as an ordered list of units together with an
insertion-ordered list of operation nodes; per-unit wire chains are derived
by filtering the node list, and the canonical command order of a circuit is
its node list (nodes are only ever appended, so the stable topological order
of the spec coincides with insertion order).
-/

set_option allowUnsafeReducibility true

attribute [semireducible] Rat.add Rat.mul Rat.sub Rat.div Rat.inv Rat.neg Rat.blt

namespace Tket

/-- Modelled from the spec (§3 Unit): the kind of a wire, quantum or classical. -/
inductive UnitKind where
  | qubit
  | bit
deriving DecidableEq, Repr

/-- Modelled from the spec (§3 Unit): a typed wire identifier — kind,
register name, and an index tuple of non-negative integers. -/
structure UnitId where
  kind : UnitKind
  reg : String
  index : List Nat
deriving DecidableEq, Repr

/-- Shorthand for the default quantum register unit `q[i]`. -/
def qb (i : Nat) : UnitId := ⟨.qubit, "q", [i]⟩

/-- Shorthand for the default classical register unit `c[i]`. -/
def cb (i : Nat) : UnitId := ⟨.bit, "c", [i]⟩

/-- Lexicographic order on index tuples. -/
def natListLe : List Nat → List Nat → Bool
  | [], _ => true
  | _ :: _, [] => false
  | a :: as, b :: bs => if a < b then true else if b < a then false else natListLe as bs

/-- Strict lexicographic order on character lists. -/
def strLtB : List Char → List Char → Bool
  | [], [] => false
  | [], _ :: _ => true
  | _ :: _, [] => false
  | a :: as, b :: bs =>
    if a.toNat < b.toNat then true else if b.toNat < a.toNat then false else strLtB as bs

/-- Strict lexicographic order on strings. -/
def strLt (a b : String) : Bool := strLtB a.data b.data

/-- Modelled from the spec (§3): units are value-comparable and totally
ordered — register name first, then index tuple, lexicographically. -/
def unitLe (u v : UnitId) : Bool :=
  if u.reg = v.reg then natListLe u.index v.index else strLt u.reg v.reg

/-- Insert a unit into a list sorted by `unitLe`. -/
def insUnit (u : UnitId) : List UnitId → List UnitId
  | [] => [u]
  | v :: vs => if unitLe u v then u :: v :: vs else v :: insUnit u vs

/-- Sort a unit list by the §3 total order (insertion sort). -/
def sortUnits (l : List UnitId) : List UnitId := l.foldr insUnit []

/-! ### Symbolic expressions (§3, §4.3)

Expressions are trees over rational literals, named symbols and the four
arithmetic operations; two expressions are equal when their canonical
sum-of-products normal forms coincide. -/

/-- Modelled from the spec (§3 Symbolic Expression): a tree over
rational literals, named symbols, `+`, `−`, `×`, `÷`. -/
inductive Expr where
  | lit (q : ℚ)
  | sym (s : String)
  | add (a b : Expr)
  | sub (a b : Expr)
  | mul (a b : Expr)
  | div (a b : Expr)
deriving DecidableEq, Repr

/-- A monomial: a sorted multiset of symbol names, as a list. -/
abbrev Mono := List String

/-- A polynomial in canonical form: monomial/coefficient pairs, sorted by
monomial, with no zero coefficients. -/
abbrev Poly := List (Mono × ℚ)

/-- Insert a string into a sorted list of strings, keeping it sorted. -/
def insSorted (x : String) : List String → List String
  | [] => [x]
  | y :: ys => if x ≤ y then x :: y :: ys else y :: insSorted x ys

/-- Sort a list of strings (insertion sort). -/
def sortStrings (l : List String) : List String := l.foldr insSorted []

/-- Monomial product: merge the two sorted symbol lists. -/
def monoMul (a b : Mono) : Mono := sortStrings (a ++ b)

/-- Strict lexicographic order on monomials. -/
def monoLt : Mono → Mono → Bool
  | [], [] => false
  | [], _ :: _ => true
  | _ :: _, [] => false
  | x :: xs, y :: ys => if x < y then true else if y < x then false else monoLt xs ys

/-- Add a single term into a canonical polynomial, combining coefficients
and dropping zeros. -/
def addTerm (m : Mono) (c : ℚ) : Poly → Poly
  | [] => if c = 0 then [] else [(m, c)]
  | (m', c') :: rest =>
    if m = m' then
      if c + c' = 0 then rest else (m, c + c') :: rest
    else if monoLt m m' then
      if c = 0 then (m', c') :: rest else (m, c) :: (m', c') :: rest
    else (m', c') :: addTerm m c rest

/-- Polynomial addition on canonical forms. -/
def polyAdd (p q : Poly) : Poly := p.foldr (fun t acc => addTerm t.1 t.2 acc) q

/-- Scale a canonical polynomial by a rational. -/
def polySmul (c : ℚ) (p : Poly) : Poly :=
  if c = 0 then [] else p.map (fun t => (t.1, c * t.2))

/-- Polynomial multiplication on canonical forms. -/
def polyMul (p q : Poly) : Poly :=
  p.foldr (fun t acc =>
    polyAdd (q.foldr (fun t' acc' => addTerm (monoMul t.1 t'.1) (t.2 * t'.2) acc') []) acc) []

/-- Modelled from the spec (§4.3, §9): canonicalization of an expression to
sum-of-products form.  Division is defined when the divisor normalizes to a
nonzero constant; otherwise the expression has no polynomial normal form. -/
def norm : Expr → Option Poly
  | .lit q => some (if q = 0 then [] else [([], q)])
  | .sym s => some [([s], 1)]
  | .add a b => do return polyAdd (← norm a) (← norm b)
  | .sub a b => do return polyAdd (← norm a) (polySmul (-1) (← norm b))
  | .mul a b => do return polyMul (← norm a) (← norm b)
  | .div a b => do
    let pb ← norm b
    match pb with
    | [([], c)] => return polySmul c⁻¹ (← norm a)
    | _ => none

/-- Modelled from the spec (§3): two parameter expressions are equal by
symbolic-simplification equivalence — equality of canonical forms, with a
structural fallback for expressions outside the polynomial fragment. -/
def pequiv (a b : Expr) : Bool :=
  match norm a, norm b with
  | some p, some q => decide (p = q)
  | none, none => decide (a = b)
  | _, _ => false

theorem pequiv_refl (e : Expr) : pequiv e e = true := by
  unfold pequiv
  cases norm e <;> simp

/-! ### Symbol substitution on expressions (§4.3) -/

/-- Modelled from the spec (§4.3): replace every occurrence of a mapped
symbol by its target expression (one simultaneous pass). -/
def substExpr (m : List (String × Expr)) : Expr → Expr
  | .lit q => .lit q
  | .sym s =>
    match m.lookup s with
    | some t => t
    | none => .sym s
  | .add a b => .add (substExpr m a) (substExpr m b)
  | .sub a b => .sub (substExpr m a) (substExpr m b)
  | .mul a b => .mul (substExpr m a) (substExpr m b)
  | .div a b => .div (substExpr m a) (substExpr m b)

/-- The symbols occurring in an expression. -/
def symbolsOf : Expr → List String
  | .lit _ => []
  | .sym s => [s]
  | .add a b | .sub a b | .mul a b | .div a b => symbolsOf a ++ symbolsOf b

/-- The domain of a symbol mapping. -/
def dom (m : List (String × Expr)) : List String := m.map Prod.fst

theorem lookup_eq_none_of_not_mem_dom {m : List (String × Expr)} {s : String}
    (h : s ∉ dom m) : m.lookup s = none := by
  induction m with
  | nil => rfl
  | cons p rest ih =>
    have h1 : ¬(s = p.1) := fun he => h (by simp [dom, he])
    have h2 : s ∉ dom rest := fun hm => h (by simp [dom] at hm ⊢; exact .inr hm)
    simp only [List.lookup]
    rw [show (s == p.1) = false from beq_eq_false_iff_ne.mpr h1]
    exact ih h2

theorem mem_of_lookup_eq_some {m : List (String × Expr)} {s : String} {t : Expr}
    (h : m.lookup s = some t) : (s, t) ∈ m := by
  induction m with
  | nil => simp [List.lookup] at h
  | cons p rest ih =>
    simp only [List.lookup] at h
    by_cases hb : s = p.1
    · rw [show (s == p.1) = true from beq_iff_eq.mpr hb] at h
      simp at h
      subst h
      exact by rw [hb]; exact .head _
    · rw [show (s == p.1) = false from beq_eq_false_iff_ne.mpr hb] at h
      exact .tail _ (ih h)

theorem substExpr_id_of_disjoint {m : List (String × Expr)} {e : Expr}
    (h : ∀ x ∈ symbolsOf e, x ∉ dom m) : substExpr m e = e := by
  induction e with
  | lit q => rfl
  | sym s =>
    have hs : s ∉ dom m := h s (by simp [symbolsOf])
    simp [substExpr, lookup_eq_none_of_not_mem_dom hs]
  | add a b iha ihb =>
    simp only [symbolsOf, List.mem_append] at h
    simp [substExpr, iha (fun x hx => h x (.inl hx)), ihb (fun x hx => h x (.inr hx))]
  | sub a b iha ihb =>
    simp only [symbolsOf, List.mem_append] at h
    simp [substExpr, iha (fun x hx => h x (.inl hx)), ihb (fun x hx => h x (.inr hx))]
  | mul a b iha ihb =>
    simp only [symbolsOf, List.mem_append] at h
    simp [substExpr, iha (fun x hx => h x (.inl hx)), ihb (fun x hx => h x (.inr hx))]
  | div a b iha ihb =>
    simp only [symbolsOf, List.mem_append] at h
    simp [substExpr, iha (fun x hx => h x (.inl hx)), ihb (fun x hx => h x (.inr hx))]

theorem lookup_append_of_some {m1 : List (String × Expr)} (m2 : List (String × Expr))
    {s : String} {t : Expr}
    (h : m1.lookup s = some t) : (m1 ++ m2).lookup s = some t := by
  induction m1 with
  | nil => simp [List.lookup] at h
  | cons p rest ih =>
    simp only [List.lookup, List.cons_append] at *
    cases hb : (s == p.1) with
    | true => rw [hb] at h; simpa using h
    | false => rw [hb] at h; exact ih h

theorem lookup_append_of_none {m1 : List (String × Expr)} (m2 : List (String × Expr))
    {s : String}
    (h : m1.lookup s = none) : (m1 ++ m2).lookup s = m2.lookup s := by
  induction m1 with
  | nil => rfl
  | cons p rest ih =>
    simp only [List.lookup, List.cons_append] at *
    cases hb : (s == p.1) with
    | true => rw [hb] at h; simp at h
    | false => rw [hb] at h; exact ih h

/-- Sequential substitution coincides with simultaneous substitution of the
union when no symbol of `m2`'s domain occurs in any target expression
of `m1`. -/
theorem substExpr_substExpr
    {m1 m2 : List (String × Expr)}
    (hrange : ∀ p ∈ m1, ∀ x ∈ symbolsOf p.2, x ∉ dom m2)
    (e : Expr) :
    substExpr m2 (substExpr m1 e) = substExpr (m1 ++ m2) e := by
  induction e with
  | lit q => rfl
  | sym s =>
    cases hl : m1.lookup s with
    | some t =>
      have hmem : (s, t) ∈ m1 := mem_of_lookup_eq_some hl
      have hid : substExpr m2 t = t :=
        substExpr_id_of_disjoint (fun x hx => hrange (s, t) hmem x hx)
      simp [substExpr, hl, lookup_append_of_some m2 hl, hid]
    | none =>
      simp [substExpr, hl, lookup_append_of_none m2 hl]
  | add a b iha ihb => simp [substExpr, iha, ihb]
  | sub a b iha ihb => simp [substExpr, iha, ihb]
  | mul a b iha ihb => simp [substExpr, iha, ihb]
  | div a b iha ihb => simp [substExpr, iha, ihb]

/-! ### Operation model (§3, §4.2) -/

/-- Modelled from the spec (§3 Operation Node): the closed catalogue of
primitive gate types. -/
inductive PrimGate where
  | H | X | Y | Z | S | Sdg | T | Tdg
  | CX | CY | CZ | SWAP
  | Rz | Ry | Rx | CRz
  | Measure
  | tk1
deriving DecidableEq, Repr

/-- Fixed arity of a primitive gate. -/
def primArity : PrimGate → Nat
  | .CX | .CY | .CZ | .SWAP | .CRz | .Measure => 2
  | _ => 1

/-- Number of phase parameters a primitive gate carries. -/
def primNumParams : PrimGate → Nat
  | .Rz | .Ry | .Rx | .CRz => 1
  | .tk1 => 3
  | _ => 0

/-- Modelled from the spec (§3 Classical Condition): an ordered list of
classical units plus an integer target value. -/
structure Cond where
  bits : List UnitId
  value : Nat
deriving DecidableEq, Repr

/-- Modelled from the spec (§7): the error kinds surfaced synchronously by
the core. -/
inductive Err where
  | duplicateUnit
  | unitNotFound
  | wrongArity
  | mixedAddressing
  | unitCollision
  | notUnitary
  | notHermitian
  | arityMismatch
  | substitutionError
  | recursionLimit
  | unsupportedConditional
  | unsupportedOperation
  | parseError
  | undeclaredRegister
  | unsupportedGate (name : String)
deriving DecidableEq, Repr

/-- A complex number with rational real and imaginary parts, standing in
for the numeric entries of defining matrices. -/
structure CQ where
  re : ℚ
  im : ℚ
deriving DecidableEq, Repr

def cqAdd (z w : CQ) : CQ := ⟨z.re + w.re, z.im + w.im⟩
def cqSub (z w : CQ) : CQ := ⟨z.re - w.re, z.im - w.im⟩
def cqMul (z w : CQ) : CQ := ⟨z.re * w.re - z.im * w.im, z.re * w.im + z.im * w.re⟩
def cqConj (z : CQ) : CQ := ⟨z.re, -z.im⟩

/-- Squared modulus of a complex rational. -/
def cqNormSq (z : CQ) : ℚ := z.re * z.re + z.im * z.im

/-- A 2×2 complex matrix, row-major: `a b / c d`. -/
structure Mat2 where
  a : CQ
  b : CQ
  c : CQ
  d : CQ
deriving DecidableEq, Repr

/-- A 4×4 complex matrix as a list of rows (only carried as box data here). -/
abbrev Mat4 := List (List CQ)

/-- Pauli operators, the letters of a Pauli string. -/
inductive Pauli where
  | I | X | Y | Z
deriving DecidableEq, Repr

mutual
/-- Modelled from the spec (§3, §9): the polymorphic operation tag — a
primitive gate or a box kind. -/
inductive Op where
  | prim (g : PrimGate)
  | box (b : BoxKind)

/-- Modelled from the spec (§3): the box kinds.  A `circBox` and a custom
gate own a nested circuit; matrix-defined boxes store their defining
matrix / Pauli string and angle. -/
inductive BoxKind where
  | circBox (c : CircD)
  | custom (name : String) (tmpl : CircD) (syms : List String) (bound : List Expr)
  | u1 (m : Mat2)
  | u2 (m : Mat4)
  | expBox (m : Mat4) (t : Expr)
  | pauliExp (ps : List Pauli) (t : Expr)

/-- Modelled from the spec (§3 Circuit): an ordered list of units together
with the insertion-ordered list of operation nodes.  Per-unit wire chains
are derived by filtering the node list. -/
inductive CircD where
  | mk (units : List UnitId) (nodes : List Node)

/-- Modelled from the spec (§3 Operation Node): operation type, ordered
operand units, parameter expressions, optional classical condition. -/
inductive Node where
  | mk (op : Op) (units : List UnitId) (params : List Expr) (cond : Option Cond)
end

def CircD.units : CircD → List UnitId
  | .mk u _ => u

def CircD.nodes : CircD → List Node
  | .mk _ n => n

def Node.op : Node → Op
  | .mk o _ _ _ => o

def Node.nunits : Node → List UnitId
  | .mk _ u _ _ => u

def Node.params : Node → List Expr
  | .mk _ _ p _ => p

def Node.cond : Node → Option Cond
  | .mk _ _ _ c => c

@[simp] theorem CircD.units_mk (u : List UnitId) (n : List Node) : (CircD.mk u n).units = u := rfl
@[simp] theorem CircD.nodes_mk (u : List UnitId) (n : List Node) : (CircD.mk u n).nodes = n := rfl

/-! ### Structural equality of operations

`deriving DecidableEq` is not available for this nested mutual inductive,
so boolean structural equality is defined by hand. -/

mutual
def opBEq : Op → Op → Bool
  | .prim g1, .prim g2 => decide (g1 = g2)
  | .box b1, .box b2 => boxBEq b1 b2
  | _, _ => false
termination_by a _ => sizeOf a

def boxBEq : BoxKind → BoxKind → Bool
  | .circBox c1, .circBox c2 => circBEq c1 c2
  | .custom n1 t1 s1 b1, .custom n2 t2 s2 b2 =>
    decide (n1 = n2) && circBEq t1 t2 && decide (s1 = s2) && decide (b1 = b2)
  | .u1 m1, .u1 m2 => decide (m1 = m2)
  | .u2 m1, .u2 m2 => decide (m1 = m2)
  | .expBox m1 t1, .expBox m2 t2 => decide (m1 = m2) && decide (t1 = t2)
  | .pauliExp p1 t1, .pauliExp p2 t2 => decide (p1 = p2) && decide (t1 = t2)
  | _, _ => false
termination_by a _ => sizeOf a

def circBEq : CircD → CircD → Bool
  | .mk u1 n1, .mk u2 n2 => decide (u1 = u2) && nodesBEq n1 n2
termination_by a _ => sizeOf a

def nodesBEq : List Node → List Node → Bool
  | [], [] => true
  | n :: ns, n' :: ns' => nodeBEq n n' && nodesBEq ns ns'
  | _, _ => false
termination_by a _ => sizeOf a

def nodeBEq : Node → Node → Bool
  | .mk o1 u1 p1 c1, .mk o2 u2 p2 c2 =>
    opBEq o1 o2 && decide (u1 = u2) && decide (p1 = p2) && decide (c1 = c2)
termination_by a _ => sizeOf a
end

mutual
theorem opBEq_refl : ∀ o, opBEq o o = true
  | .prim g => by simp [opBEq]
  | .box b => by simpa [opBEq] using boxBEq_refl b
termination_by o => sizeOf o

theorem boxBEq_refl : ∀ b, boxBEq b b = true
  | .circBox c => by simpa [boxBEq] using circBEq_refl c
  | .custom n t s bnd => by simpa [boxBEq] using circBEq_refl t
  | .u1 m => by simp [boxBEq]
  | .u2 m => by simp [boxBEq]
  | .expBox m t => by simp [boxBEq]
  | .pauliExp p t => by simp [boxBEq]
termination_by b => sizeOf b

theorem circBEq_refl : ∀ c, circBEq c c = true
  | .mk u n => by simpa [circBEq] using nodesBEq_refl n
termination_by c => sizeOf c

theorem nodesBEq_refl : ∀ l, nodesBEq l l = true
  | [] => by simp [nodesBEq]
  | n :: ns => by
    simp only [nodesBEq, Bool.and_eq_true]
    exact ⟨nodeBEq_refl n, nodesBEq_refl ns⟩
termination_by l => sizeOf l

theorem nodeBEq_refl : ∀ n, nodeBEq n n = true
  | .mk o u p c => by simpa [nodeBEq] using opBEq_refl o
termination_by n => sizeOf n
end

/-! ### Wire chains and §4.1 circuit equality -/

/-- The classical units a node's condition reads. -/
def Node.condBits (n : Node) : List UnitId :=
  match n.cond with
  | some c => c.bits
  | none => []

/-- All units whose wires pass through a node: operands plus condition bits. -/
def Node.wires (n : Node) : List UnitId := n.nunits ++ n.condBits

/-- Modelled from the spec (§3): the wire chain of a unit — the
chronological sequence of nodes its wire passes through. -/
def chain (c : CircD) (u : UnitId) : List Node :=
  c.nodes.filter (fun n => decide (u ∈ n.wires))

/-- Parameter lists compared pointwise by symbolic equivalence. -/
def paramsEq : List Expr → List Expr → Bool
  | [], [] => true
  | p :: ps, q :: qs => pequiv p q && paramsEq ps qs
  | _, _ => false

theorem paramsEq_refl (l : List Expr) : paramsEq l l = true := by
  induction l with
  | nil => rfl
  | cons p ps ih => simp [paramsEq, pequiv_refl, ih]

/-- Nodes compared as wire-chain entries: structurally equal operations,
operands and condition data, symbolically equal parameters (§4.1). -/
def nodeEntryEq (n1 n2 : Node) : Bool :=
  opBEq n1.op n2.op && decide (n1.nunits = n2.nunits)
    && paramsEq n1.params n2.params && decide (n1.cond = n2.cond)

theorem nodeEntryEq_refl (n : Node) : nodeEntryEq n n = true := by
  simp [nodeEntryEq, opBEq_refl, paramsEq_refl]

/-- Wire chains compared pointwise. -/
def chainEq : List Node → List Node → Bool
  | [], [] => true
  | n :: ns, n' :: ns' => nodeEntryEq n n' && chainEq ns ns'
  | _, _ => false

theorem chainEq_refl (l : List Node) : chainEq l l = true := by
  induction l with
  | nil => rfl
  | cons n ns ih => simp [chainEq, nodeEntryEq_refl, ih]

/-- Modelled from the spec (§4.1): two circuits are equal iff their unit
lists (register layouts) are identical and every unit's wire chain matches
by structurally-equal operations, condition data and symbolically-equal
parameters. -/
def circEq (c1 c2 : CircD) : Bool :=
  decide (c1.units = c2.units)
    && c1.units.all (fun u => chainEq (chain c1 u) (chain c2 u))

theorem circEq_refl (c : CircD) : circEq c c = true := by
  simp [circEq, chainEq_refl]

/-! ### Circuit construction API (§4.1) -/

/-- The empty circuit. -/
def emptyCirc : CircD := .mk [] []

/-- Modelled from the spec (§3, and the notebook's `Circuit(n, m)`): a
fresh circuit with `n` default-register qubits `q[0..n-1]` and `m`
default-register bits `c[0..m-1]`. -/
def initCirc (n m : Nat) : CircD :=
  .mk ((List.range n).map qb ++ (List.range m).map cb) []

/-- The circuit's qubits as the program displays them.  The notebook's
recorded outputs (the cells printing `c.qubits` after adding `alpha`,
`beta`, `gamma` and the register `delta`) show the listing sorted by unit
id — register name, then index tuple, the §3 total order — not in
insertion order; this definition follows that recorded behavior. -/
def CircD.qubits (c : CircD) : List UnitId :=
  sortUnits (c.units.filter (fun u => decide (u.kind = .qubit)))

/-- The circuit's classical bits as displayed, sorted like `qubits`. -/
def CircD.bits (c : CircD) : List UnitId :=
  sortUnits (c.units.filter (fun u => decide (u.kind = .bit)))

/-- Modelled from the spec (§4.1): `add_unit` appends a fresh unit, failing
with `DuplicateUnitError` if it is already present. -/
def addUnit (c : CircD) (u : UnitId) : Except Err CircD :=
  if u ∈ c.units then .error .duplicateUnit
  else .ok (.mk (c.units ++ [u]) c.nodes)

/-- Modelled from the spec (§4.1): `add_register` creates `size` fresh
units `name[0..size-1]` of the given kind; it fails — leaving the circuit
unmodified (§7) — if any resulting unit already exists. -/
def addRegister (c : CircD) (name : String) (size : Nat) (k : UnitKind) : Except Err CircD :=
  let fresh := (List.range size).map (fun i => UnitId.mk k name [i])
  if fresh.any (fun u => u ∈ c.units) then .error .duplicateUnit
  else .ok (.mk (c.units ++ fresh) c.nodes)

/-- Arity of an operation: fixed for primitives, the nested circuit's unit
count for boxes (§4.2). -/
def opArity : Op → Nat
  | .prim g => primArity g
  | .box (.circBox c) => c.units.length
  | .box (.custom _ t _ _) => t.units.length
  | .box (.u1 _) => 1
  | .box (.u2 _) => 2
  | .box (.expBox _ _) => 2
  | .box (.pauliExp ps _) => ps.length

/-- Modelled from the spec (§4.1): `add_operation` appends a node to the
end of every operand's wire chain, failing with `UnitNotFoundError` if an
operand (or condition bit) is absent and `WrongArityError` on an arity
mismatch; on failure the circuit is unmodified (§7). -/
def addOperation (c : CircD) (op : Op) (us : List UnitId) (ps : List Expr)
    (cond : Option Cond) : Except Err CircD :=
  if ¬ (us.all (fun u => u ∈ c.units)
        && (match cond with
            | some cd => cd.bits.all (fun u => u ∈ c.units)
            | none => true)) then .error .unitNotFound
  else if us.length ≠ opArity op then .error .wrongArity
  else .ok (.mk c.units (c.nodes ++ [.mk op us ps cond]))

/-- An operand argument: either an integer index into the default register
or an explicit unit. -/
inductive Arg where
  | int (i : Nat)
  | unit (u : UnitId)
deriving DecidableEq, Repr

def Arg.isInt : Arg → Bool
  | .int _ => true
  | .unit _ => false

/-- Per-position operand kinds of a primitive gate (for resolving integer
shorthand to the default quantum or classical register). -/
def primArgKinds : PrimGate → List UnitKind
  | .CX | .CY | .CZ | .SWAP | .CRz => [.qubit, .qubit]
  | .Measure => [.qubit, .bit]
  | _ => [.qubit]

/-- Resolve one shorthand argument against its position's kind. -/
def resolveArg (k : UnitKind) : Arg → UnitId
  | .int i => match k with
    | .qubit => qb i
    | .bit => cb i
  | .unit u => u

/-- Modelled from the spec (§4.1) and the notebook's gate-adding calls:
integer arguments resolve to default-register units positionally, explicit
units are taken as given, and mixing the two conventions in one call fails
with `UnsupportedMixedAddressingError`. -/
def addPrim (c : CircD) (g : PrimGate) (ps : List Expr) (args : List Arg)
    (cond : Option Cond) : Except Err CircD :=
  if args.any Arg.isInt && args.any (fun a => !a.isInt) then .error .mixedAddressing
  else addOperation c (.prim g) ((primArgKinds g).zip args |>.map (fun p => resolveArg p.1 p.2)) ps cond

/-- Modelled from the spec (§4.6): `add_gate` with a classical condition
attaches a `Cond` to the new node. -/
def addGateCond (c : CircD) (g : PrimGate) (ps : List Expr) (us : List UnitId)
    (condBits : List UnitId) (condValue : Nat) : Except Err CircD :=
  addOperation c (.prim g) us ps (some ⟨condBits, condValue⟩)

/-- Modelled from the spec (§4.6): the runtime values of the condition
bits, read as an unsigned integer with the first bit least significant. -/
def bitsToNat : List Bool → Nat
  | [] => 0
  | b :: bs => (if b then 1 else 0) + 2 * bitsToNat bs

/-- Modelled from the spec (§4.6): the gate effect applies iff the
condition bits' runtime values, read as an unsigned integer in the given
bit order, equal the target value. -/
def condHolds (cd : Cond) (vals : UnitId → Bool) : Bool :=
  decide (bitsToNat (cd.bits.map vals) = cd.value)

/-! ### Composition (§4.4) -/

/-- Modelled from the spec (§4.4): `append` unions the argument's
operations onto the receiver; units present in both compose serially,
units present only in the argument are first added as fresh untouched
wires, and the argument's nodes follow all of the receiver's nodes. -/
def appendCirc (c other : CircD) : CircD :=
  .mk (c.units ++ other.units.filter (fun u => ¬ (u ∈ c.units)))
    (c.nodes ++ other.nodes)

/-- Well-formedness: every node's wires are units of the circuit.  All
construction calls preserve this. -/
def wfCirc (c : CircD) : Bool :=
  c.nodes.all (fun n => n.wires.all (fun u => u ∈ c.units))

/-! ### Symbol substitution on circuits (§4.3) -/

/-- Substitution on an operation: the bound parameter list of a custom-gate
instantiation is the only mutable expression data an operation tag carries
(nested template circuits are immutable value objects, §3). -/
def substOp (m : List (String × Expr)) : Op → Op
  | .box (.custom nm t s bnd) => .box (.custom nm t s (bnd.map (substExpr m)))
  | .box (.expBox mm t) => .box (.expBox mm (substExpr m t))
  | .box (.pauliExp ps t) => .box (.pauliExp ps (substExpr m t))
  | o => o

/-- Substitution on a node: every parameter expression is rewritten. -/
def substNode (m : List (String × Expr)) (n : Node) : Node :=
  .mk (substOp m n.op) n.nunits (n.params.map (substExpr m)) n.cond

/-- Modelled from the spec (§4.3): `symbol_substitution` replaces every
occurrence of a mapped symbol in every node's parameter expressions in one
simultaneous pass over the circuit. -/
def symbolSubstitution (c : CircD) (m : List (String × Expr)) : CircD :=
  .mk c.units (c.nodes.map (substNode m))

/-! ### Box expansion and `DecomposeBoxes` (§4.2, §4.5)

Elementary-gate synthesis from matrices and Pauli strings is an external
collaborator (§6); the placeholder synthesis functions below are
deterministic, produce primitive gates only, and stand in for it. -/

/-- Internal boundary units of a box's nested circuit. -/
def boxInnerUnits : BoxKind → List UnitId
  | .circBox c => c.units
  | .custom _ t _ _ => t.units
  | .u1 _ => [qb 0]
  | .u2 _ => [qb 0, qb 1]
  | .expBox _ _ => [qb 0, qb 1]
  | .pauliExp ps _ => (List.range ps.length).map qb

/-- Modelled from the spec (§6): placeholder for the external 1-qubit
numeric decomposition collaborator, deterministic in the matrix. -/
def synthU1 (m : Mat2) : List Node :=
  [.mk (.prim .tk1) [qb 0] [.lit m.a.re, .lit m.b.re, .lit m.d.re] none]

/-- Modelled from the spec (§6): placeholder for the external 2-qubit
numeric decomposition collaborator. -/
def synthU2 (m : Mat4) : List Node :=
  [.mk (.prim .CX) [qb 0, qb 1] [] none,
   .mk (.prim .tk1) [qb 0] [.lit ((m.headD []).headD ⟨0, 0⟩).re, .lit 0, .lit 0] none]

/-- Modelled from the spec (§6): placeholder synthesis for `ExpBox`. -/
def synthExp (m : Mat4) (t : Expr) : List Node :=
  [.mk (.prim .CX) [qb 0, qb 1] [] none,
   .mk (.prim .Rz) [qb 1] [Expr.mul t (.lit ((m.headD []).headD ⟨0, 0⟩).re)] none,
   .mk (.prim .CX) [qb 0, qb 1] [] none]

/-- Modelled from the spec (§6): placeholder synthesis for `PauliExpBox`. -/
def synthPauli (ps : List Pauli) (t : Expr) : List Node :=
  [.mk (.prim .Rz) [qb (ps.length - 1)] [t] none]

/-- Modelled from the spec (§4.2): `get_circuit()` — the elementary
expansion a box exposes.  A `CircBox` returns exactly its nested circuit; a
custom gate returns its template with the bound parameters substituted for
its symbols; matrix-defined boxes return the synthesized expansion. -/
def getCircuit : BoxKind → CircD
  | .circBox c => c
  | .custom _ t s bnd => .mk t.units (t.nodes.map (substNode (s.zip bnd)))
  | .u1 m => .mk [qb 0] (synthU1 m)
  | .u2 m => .mk [qb 0, qb 1] (synthU2 m)
  | .expBox m t => .mk [qb 0, qb 1] (synthExp m t)
  | .pauliExp ps t => .mk ((List.range ps.length).map qb) (synthPauli ps t)

/-- Rewire a unit of the box's internal coordinate system onto the operand
units of the box node. -/
def retargetUnit (inner outer : List UnitId) (u : UnitId) : UnitId :=
  outer.getD (inner.indexOf u) u

/-- Rewire a spliced node onto the box node's operands; the box node's own
condition, if any, is inherited by every spliced node. -/
def retargetNode (inner outer : List UnitId) (oc : Option Cond) (n : Node) : Node :=
  .mk n.op (n.nunits.map (retargetUnit inner outer)) n.params
    (match oc with
     | some cd => some cd
     | none => n.cond.map (fun cd => ⟨cd.bits.map (retargetUnit inner outer), cd.value⟩))

mutual
/-- Modelled from the spec (§4.5): a primitive node is kept; a box node is
replaced by its fully decomposed expansion, rewired onto the node's
operands (splice at the node's position). -/
def decomposeNode : Node → List Node
  | .mk (.prim g) us ps cd => [.mk (.prim g) us ps cd]
  | .mk (.box b) us _ cd =>
    (decomposeBoxExp b).map (retargetNode (boxInnerUnits b) us cd)
termination_by n => sizeOf n

/-- The fully decomposed expansion of a box, in its internal coordinates. -/
def decomposeBoxExp : BoxKind → List Node
  | .circBox (.mk _ ns) => decomposeNodes ns
  | .custom _ (.mk _ ns) s bnd => (decomposeNodes ns).map (substNode (s.zip bnd))
  | .u1 m => synthU1 m
  | .u2 m => synthU2 m
  | .expBox m t => synthExp m t
  | .pauliExp ps t => synthPauli ps t
termination_by b => sizeOf b

/-- Pointwise decomposition of a node list, splicing each expansion at the
original node's position. -/
def decomposeNodes : List Node → List Node
  | [] => []
  | n :: ns => decomposeNode n ++ decomposeNodes ns
termination_by l => sizeOf l
end

/-- Modelled from the spec (§4.5): the `DecomposeBoxes` pass. -/
def decomposeBoxes (c : CircD) : CircD := .mk c.units (decomposeNodes c.nodes)

/-- A node is box-free when its operation is a primitive gate. -/
def boxFreeNode (n : Node) : Bool :=
  match n.op with
  | .prim _ => true
  | .box _ => false

/-- A circuit is box-free when all its nodes are. -/
def circBoxFree (c : CircD) : Bool := c.nodes.all boxFreeNode

@[simp] theorem boxFreeNode_substNode (m : List (String × Expr)) (n : Node) :
    boxFreeNode (substNode m n) = boxFreeNode n := by
  cases n with
  | mk o us ps cd =>
    cases o with
    | prim g => rfl
    | box b => cases b <;> rfl

@[simp] theorem boxFreeNode_retargetNode (inner outer : List UnitId) (oc : Option Cond)
    (n : Node) : boxFreeNode (retargetNode inner outer oc n) = boxFreeNode n := by
  cases n with
  | mk o us ps cd => cases o <;> rfl

theorem synthU1_boxFree (m : Mat2) : (synthU1 m).all boxFreeNode = true := by
  simp [synthU1, boxFreeNode, Node.op]

theorem synthU2_boxFree (m : Mat4) : (synthU2 m).all boxFreeNode = true := by
  simp [synthU2, boxFreeNode, Node.op]

theorem synthExp_boxFree (m : Mat4) (t : Expr) : (synthExp m t).all boxFreeNode = true := by
  simp [synthExp, boxFreeNode, Node.op]

theorem synthPauli_boxFree (ps : List Pauli) (t : Expr) :
    (synthPauli ps t).all boxFreeNode = true := by
  simp [synthPauli, boxFreeNode, Node.op]

theorem decomposeNodes_boxFree (l : List Node) : (decomposeNodes l).all boxFreeNode = true := by
  apply decomposeNodes.induct
    (fun n => (decomposeNode n).all boxFreeNode = true)
    (fun b => (decomposeBoxExp b).all boxFreeNode = true)
    (fun l => (decomposeNodes l).all boxFreeNode = true)
  · intro g us ps cd
    simp [decomposeNode, boxFreeNode, Node.op]
  · intro b us ps cd ih
    rw [decomposeNode]
    rw [List.all_map]
    rw [List.all_eq_true] at ih ⊢
    intro x hx
    simpa [Function.comp, boxFreeNode_retargetNode] using ih x hx
  · intro us ns ih
    rw [decomposeBoxExp]
    exact ih
  · intro nm us ns s bnd ih
    rw [decomposeBoxExp]
    rw [List.all_map]
    rw [List.all_eq_true] at ih ⊢
    intro x hx
    simpa [Function.comp, boxFreeNode_substNode] using ih x hx
  · intro m; rw [decomposeBoxExp]; exact synthU1_boxFree m
  · intro m; rw [decomposeBoxExp]; exact synthU2_boxFree m
  · intro m t; rw [decomposeBoxExp]; exact synthExp_boxFree m t
  · intro ps t; rw [decomposeBoxExp]; exact synthPauli_boxFree ps t
  · rw [decomposeNodes]; rfl
  · intro n ns ih1 ih2
    rw [decomposeNodes, List.all_append]
    simp [ih1, ih2]

theorem decomposeNode_of_boxFree {n : Node} (h : boxFreeNode n = true) :
    decomposeNode n = [n] := by
  cases n with
  | mk o us ps cd =>
    cases o with
    | prim g => rw [decomposeNode]
    | box b => simp [boxFreeNode, Node.op] at h

theorem decomposeNodes_of_boxFree {l : List Node} (h : l.all boxFreeNode = true) :
    decomposeNodes l = l := by
  induction l with
  | nil => rw [decomposeNodes]
  | cons n ns ih =>
    simp only [List.all_cons, Bool.and_eq_true] at h
    rw [decomposeNodes, decomposeNode_of_boxFree h.1, ih h.2]
    rfl

/-- One application leaves no boxes, so a second changes nothing. -/
theorem decomposeBoxes_idem (c : CircD) :
    decomposeBoxes (decomposeBoxes c) = decomposeBoxes c := by
  cases c with
  | mk us ns =>
    simp [decomposeBoxes, decomposeNodes_of_boxFree (decomposeNodes_boxFree ns)]

theorem decomposeNodes_eq_flatMap (l : List Node) :
    decomposeNodes l = l.flatMap decomposeNode := by
  induction l with
  | nil => rw [decomposeNodes]; rfl
  | cons n ns ih => rw [decomposeNodes, ih]; rfl

/-! ### `RemoveRedundancies` (§4.5)

Modelled from the spec's words: the pass acts locally, cancelling adjacent
inverse gate pairs and merging adjacent same-axis rotations on identical
operand lists by summing their (possibly symbolic) angles; adjacency is
modelled as adjacency in the chronological node list, and conditioned
nodes are never touched. -/

/-- Gates that are rotations about a fixed axis. -/
def isRotGate : PrimGate → Bool
  | .Rz | .Ry | .Rx | .CRz => true
  | _ => false

/-- Self-inverse parameterless gates. -/
def selfInvGate : PrimGate → Bool
  | .H | .X | .Y | .Z | .CX | .CY | .CZ | .SWAP => true
  | _ => false

/-- Two adjacent nodes merge when they are the same unconditioned rotation
gate on the same operands. -/
def mergeable : Node → Node → Bool
  | .mk (.prim g1) us1 [_] none, .mk (.prim g2) us2 [_] none =>
    isRotGate g1 && decide (g1 = g2) && decide (us1 = us2)
  | _, _ => false

/-- The merged rotation: a single gate whose angle is the sum. -/
def mergeNodes : Node → Node → Node
  | .mk o1 us1 [p1] c1, .mk _ _ [p2] _ => .mk o1 us1 [Expr.add p1 p2] c1
  | n1, _ => n1

/-- Two adjacent nodes cancel when they are unconditioned mutually inverse
parameterless gates on the same operands. -/
def invPair : Node → Node → Bool
  | .mk (.prim g1) us1 [] none, .mk (.prim g2) us2 [] none =>
    decide (us1 = us2)
      && (selfInvGate g1 && decide (g1 = g2)
          || decide (g1 = .S) && decide (g2 = .Sdg)
          || decide (g1 = .Sdg) && decide (g2 = .S)
          || decide (g1 = .T) && decide (g2 = .Tdg)
          || decide (g1 = .Tdg) && decide (g2 = .T))
  | _, _ => false

/-- Modelled from the spec (§4.5): one left-to-right reduction sweep. -/
def rr : List Node → List Node
  | [] => []
  | [n] => [n]
  | n1 :: n2 :: rest =>
    if mergeable n1 n2 then rr (mergeNodes n1 n2 :: rest)
    else if invPair n1 n2 then rr rest
    else n1 :: rr (n2 :: rest)
termination_by l => l.length

/-- Modelled from the spec (§4.5): the `RemoveRedundancies` pass. -/
def removeRedundancies (c : CircD) : CircD := .mk c.units (rr c.nodes)

/-- Order-preserving reduction: the output arises from the input only by
keeping nodes in place, merging an adjacent rotation pair, or cancelling an
adjacent inverse pair — never by reordering. -/
inductive Reduces : List Node → List Node → Prop where
  | nil : Reduces [] []
  | keep (n : Node) {l l' : List Node} : Reduces l l' → Reduces (n :: l) (n :: l')
  | merge {n1 n2 : Node} {l l' : List Node} : mergeable n1 n2 = true →
      Reduces (mergeNodes n1 n2 :: l) l' → Reduces (n1 :: n2 :: l) l'
  | cancel {n1 n2 : Node} {l l' : List Node} : invPair n1 n2 = true →
      Reduces l l' → Reduces (n1 :: n2 :: l) l'

theorem rr_reduces (l : List Node) : Reduces l (rr l) := by
  apply rr.induct (motive := fun l => Reduces l (rr l))
  · rw [rr]; exact Reduces.nil
  · intro n; rw [rr]; exact Reduces.keep n Reduces.nil
  · intro n1 n2 rest hm ih
    rw [rr, if_pos hm]
    exact Reduces.merge hm ih
  · intro n1 n2 rest hm hi ih
    rw [rr, if_neg (by simp [hm]), if_pos hi]
    exact Reduces.cancel hi ih
  · intro n1 n2 rest hm hi ih
    rw [rr, if_neg (by simp [hm]), if_neg (by simp [hi])]
    exact Reduces.keep n1 ih

theorem invPair_not_mergeable {n1 n2 : Node} (h : invPair n1 n2 = true) :
    mergeable n1 n2 = false := by
  cases n1 with
  | mk o1 us1 ps1 c1 =>
    cases n2 with
    | mk o2 us2 ps2 c2 =>
      cases o1 <;> cases o2 <;> cases ps1 <;> cases ps2 <;> cases c1 <;> cases c2 <;>
        simp_all [invPair, mergeable]

theorem rr_merge_pair {n1 n2 : Node} (h : mergeable n1 n2 = true) :
    rr [n1, n2] = [mergeNodes n1 n2] := by
  rw [rr, if_pos h, rr]

theorem rr_cancel_pair {n1 n2 : Node} (h : invPair n1 n2 = true) :
    rr [n1, n2] = [] := by
  rw [rr, if_neg (by simp [invPair_not_mergeable h]), if_pos h, rr]

/-! ### The gate-list (QASM) text format (§4.7, §6)

The format is modelled at the level of its line grammar: register
declaration lines and gate lines (the latter carrying an optional
condition, the `IF ([units] == value) THEN` form).  Export fails with
`UnsupportedOperationError` on any construct outside this grammar — boxes,
multi-dimensional or non-contiguous register layouts. -/

/-- A line of the gate-list text format. -/
inductive QasmLine where
  | qreg (name : String) (size : Nat)
  | creg (name : String) (size : Nat)
  | gate (g : PrimGate) (params : List Expr) (args : List UnitId) (cond : Option Cond)
deriving DecidableEq, Repr

/-- The register a unit belongs to: its kind and register name. -/
def regKey (u : UnitId) : UnitKind × String := (u.kind, u.reg)

/-- First-occurrence deduplication, with an accumulator of already-seen
entries. -/
def firstOccsAux (seen : List (UnitKind × String)) :
    List (UnitKind × String) → List (UnitKind × String)
  | [] => []
  | p :: ps => if p ∈ seen then firstOccsAux seen ps else p :: firstOccsAux (p :: seen) ps

/-- First-occurrence deduplication. -/
def firstOccs (l : List (UnitKind × String)) : List (UnitKind × String) :=
  firstOccsAux [] l

/-- The circuit's register layout: kind, name and size of each register in
order of first appearance. -/
def regsOf (units : List UnitId) : List (UnitKind × String × Nat) :=
  (firstOccs (units.map regKey)).map
    (fun p => (p.1, p.2, (units.filter (fun u => decide (regKey u = p))).length))

/-- The unit list a register layout declares: for each register in order,
indices `0..size-1`. -/
def regUnitsOf (regs : List (UnitKind × String × Nat)) : List UnitId :=
  regs.flatMap (fun r => (List.range r.2.2).map (fun i => UnitId.mk r.1 r.2.1 [i]))

/-- The header block: one declaration line per register (§4.7). -/
def regLinesOf (regs : List (UnitKind × String × Nat)) : List QasmLine :=
  regs.map (fun r =>
    match r.1 with
    | .qubit => QasmLine.qreg r.2.1 r.2.2
    | .bit => QasmLine.creg r.2.1 r.2.2)

/-- Expressibility of one gate line against a set of declared units:
operands declared, arity and parameter count correct, condition bits
declared classical bits. -/
def gateOk (units : List UnitId) (g : PrimGate) (ps : List Expr) (args : List UnitId)
    (cond : Option Cond) : Bool :=
  args.all (fun u => u ∈ units) && decide (args.length = primArity g)
    && decide (ps.length = primNumParams g)
    && (match cond with
        | some cd => cd.bits.all (fun u => decide (u ∈ units) && decide (u.kind = .bit))
        | none => true)

/-- Modelled from the spec (§4.7): emit one body line per node, using the
fixed per-gate templates; fails with `UnsupportedOperationError` on a box
or an inexpressible node. -/
def exportNode (units : List UnitId) : Node → Except Err QasmLine
  | .mk (.prim g) us ps cd =>
    if gateOk units g ps us cd then .ok (.gate g ps us cd) else .error .unsupportedOperation
  | .mk (.box _) _ _ _ => .error .unsupportedOperation

def exportNodes (units : List UnitId) : List Node → Except Err (List QasmLine)
  | [] => .ok []
  | n :: ns =>
    match exportNode units n, exportNodes units ns with
    | .ok l, .ok ls => .ok (l :: ls)
    | .error e, _ => .error e
    | .ok _, .error e => .error e

/-- Modelled from the spec (§4.7): export — a header block for each
register, then one line per node in canonical order; fails if the unit
list is not exactly a sequence of contiguous single-index registers. -/
def exportQasm (c : CircD) : Except Err (List QasmLine) :=
  if ¬ decide (regUnitsOf (regsOf c.units) = c.units) then .error .unsupportedOperation
  else
    match exportNodes c.units c.nodes with
    | .ok gls => .ok (regLinesOf (regsOf c.units) ++ gls)
    | .error e => .error e

/-- Modelled from the spec (§4.7): import processes one line — register
declarations create fresh default-layout registers, gate lines append
nodes in file order, failing with `UndeclaredRegisterError` on a reference
to an undeclared unit. -/
def importLine (c : CircD) : QasmLine → Except Err CircD
  | .qreg name size =>
    if c.units.any (fun u => decide (regKey u = (.qubit, name))) then .error .parseError
    else .ok (.mk (c.units ++ (List.range size).map (fun i => UnitId.mk .qubit name [i])) c.nodes)
  | .creg name size =>
    if c.units.any (fun u => decide (regKey u = (.bit, name))) then .error .parseError
    else .ok (.mk (c.units ++ (List.range size).map (fun i => UnitId.mk .bit name [i])) c.nodes)
  | .gate g ps args cd =>
    if gateOk c.units g ps args cd
    then .ok (.mk c.units (c.nodes ++ [.mk (.prim g) args ps cd]))
    else .error .undeclaredRegister

def importLines (c : CircD) : List QasmLine → Except Err CircD
  | [] => .ok c
  | ln :: rest =>
    match importLine c ln with
    | .ok c' => importLines c' rest
    | .error e => .error e

/-- Modelled from the spec (§4.7): import a whole document into a fresh
circuit, reconstructing nodes in file order. -/
def importQasm (lines : List QasmLine) : Except Err CircD := importLines emptyCirc lines

theorem importLines_append (c : CircD) (l1 l2 : List QasmLine) :
    importLines c (l1 ++ l2) =
      match importLines c l1 with
      | .ok c' => importLines c' l2
      | .error e => .error e := by
  induction l1 generalizing c with
  | nil => simp [importLines]
  | cons ln rest ih =>
    simp only [List.cons_append, importLines]
    cases importLine c ln with
    | ok c' => exact ih c'
    | error e => rfl

theorem firstOccsAux_not_mem_seen {l : List (UnitKind × String)}
    {seen : List (UnitKind × String)} {q : UnitKind × String}
    (h : q ∈ firstOccsAux seen l) : q ∉ seen := by
  induction l generalizing seen with
  | nil => simp [firstOccsAux] at h
  | cons p ps ih =>
    simp only [firstOccsAux] at h
    by_cases hp : p ∈ seen
    · rw [if_pos hp] at h
      exact ih h
    · rw [if_neg hp] at h
      rcases List.mem_cons.mp h with h1 | h2
      · exact h1 ▸ hp
      · intro hq
        exact ih h2 (List.mem_cons_of_mem p hq)

theorem firstOccsAux_nodup (l : List (UnitKind × String))
    (seen : List (UnitKind × String)) : (firstOccsAux seen l).Nodup := by
  induction l generalizing seen with
  | nil => simp [firstOccsAux]
  | cons p ps ih =>
    simp only [firstOccsAux]
    by_cases hp : p ∈ seen
    · rw [if_pos hp]; exact ih seen
    · rw [if_neg hp]
      refine List.nodup_cons.mpr ⟨fun hmem => ?_, ih (p :: seen)⟩
      exact firstOccsAux_not_mem_seen hmem (List.mem_cons_self p seen)

theorem firstOccs_nodup (l : List (UnitKind × String)) : (firstOccs l).Nodup :=
  firstOccsAux_nodup l []

theorem regsOf_keys (units : List UnitId) :
    (regsOf units).map (fun r => (r.1, r.2.1)) = firstOccs (units.map regKey) := by
  rw [regsOf, List.map_map]
  generalize firstOccs (units.map regKey) = l
  induction l with
  | nil => rfl
  | cons p ps ih => simp [ih]

theorem importLines_regLines (regs : List (UnitKind × String × Nat))
    (us0 : List UnitId) (ns0 : List Node)
    (hfresh : ∀ r ∈ regs, ∀ u ∈ us0, ¬ (regKey u = (r.1, r.2.1)))
    (hnodup : (regs.map (fun r => (r.1, r.2.1))).Nodup) :
    importLines (.mk us0 ns0) (regLinesOf regs) = .ok (.mk (us0 ++ regUnitsOf regs) ns0) := by
  induction regs generalizing us0 with
  | nil => simp [importLines, regLinesOf, regUnitsOf]
  | cons r rest ih =>
    obtain ⟨k, nm, sz⟩ := r
    have hany : (us0.any (fun u => decide (regKey u = (k, nm)))) = false := by
      simp only [List.any_eq_false]
      intro u hu
      simpa using hfresh (k, nm, sz) (List.mem_cons_self _ _) u hu
    rw [List.map_cons] at hnodup
    have hnodup' := List.nodup_cons.mp hnodup
    have hstep :
        importLines (.mk (us0 ++ (List.range sz).map (fun i => UnitId.mk k nm [i])) ns0)
            (regLinesOf rest) =
          .ok (.mk ((us0 ++ (List.range sz).map (fun i => UnitId.mk k nm [i]))
            ++ regUnitsOf rest) ns0) := by
      apply ih
      · intro r' hr' u hu
        rcases List.mem_append.mp hu with h1 | h2
        · exact hfresh r' (List.mem_cons_of_mem _ hr') u h1
        · obtain ⟨i, _, rfl⟩ := List.mem_map.mp h2
          simp only [regKey]
          intro hcontra
          apply hnodup'.1
          have heq : (k, nm) = (r'.1, r'.2.1) := by simpa using hcontra
          rw [heq]
          exact List.mem_map.mpr ⟨r', hr', rfl⟩
      · exact hnodup'.2
    have hunits : regUnitsOf ((k, nm, sz) :: rest) =
        (List.range sz).map (fun i => UnitId.mk k nm [i]) ++ regUnitsOf rest := by
      simp [regUnitsOf]
    cases k with
    | qubit =>
      have hline : regLinesOf ((UnitKind.qubit, nm, sz) :: rest) =
          QasmLine.qreg nm sz :: regLinesOf rest := by simp [regLinesOf]
      rw [hline]
      have himp : importLine (.mk us0 ns0) (QasmLine.qreg nm sz) =
          .ok (.mk (us0 ++ (List.range sz).map (fun i => UnitId.mk .qubit nm [i])) ns0) := by
        simp only [importLine, CircD.units_mk, CircD.nodes_mk]
        rw [if_neg (by simp [hany])]
      simp only [importLines, himp]
      rw [hstep, hunits, List.append_assoc]
    | bit =>
      have hline : regLinesOf ((UnitKind.bit, nm, sz) :: rest) =
          QasmLine.creg nm sz :: regLinesOf rest := by simp [regLinesOf]
      rw [hline]
      have himp : importLine (.mk us0 ns0) (QasmLine.creg nm sz) =
          .ok (.mk (us0 ++ (List.range sz).map (fun i => UnitId.mk .bit nm [i])) ns0) := by
        simp only [importLine, CircD.units_mk, CircD.nodes_mk]
        rw [if_neg (by simp [hany])]
      simp only [importLines, himp]
      rw [hstep, hunits, List.append_assoc]

theorem importLines_gates (units : List UnitId) (ns : List Node) (gls : List QasmLine)
    (ns0 : List Node) (h : exportNodes units ns = .ok gls) :
    importLines (.mk units ns0) gls = .ok (.mk units (ns0 ++ ns)) := by
  induction ns generalizing gls ns0 with
  | nil =>
    simp only [exportNodes] at h
    injection h with h
    subst h
    simp [importLines]
  | cons n rest ih =>
    simp only [exportNodes] at h
    cases hn : exportNode units n with
    | error e => rw [hn] at h; simp at h
    | ok ln =>
      rw [hn] at h
      cases hrest : exportNodes units rest with
      | error e => rw [hrest] at h; simp at h
      | ok ls =>
        rw [hrest] at h
        simp only at h
        injection h with h
        subst h
        cases n with
        | mk o us ps cd =>
          cases o with
          | box b => simp [exportNode] at hn
          | prim g =>
            simp only [exportNode] at hn
            by_cases hok : gateOk units g ps us cd = true
            · rw [if_pos hok] at hn
              injection hn with hn
              subst hn
              have himp : importLine (.mk units ns0) (QasmLine.gate g ps us cd) =
                  .ok (.mk units (ns0 ++ [Node.mk (.prim g) us ps cd])) := by
                simp only [importLine, CircD.units_mk, CircD.nodes_mk]
                rw [if_pos hok]
              simp only [importLines, himp]
              have hih := ih ls (ns0 ++ [Node.mk (.prim g) us ps cd]) hrest
              rw [hih, List.append_assoc]
              rfl
            · rw [if_neg hok] at hn
              exact absurd hn (by simp)

/-- Export followed by import reconstructs the circuit exactly. -/
theorem exportQasm_importQasm {c : CircD} {doc : List QasmLine}
    (h : exportQasm c = .ok doc) : importQasm doc = .ok c := by
  obtain ⟨cu, cn⟩ := c
  unfold exportQasm at h
  simp only [CircD.units_mk, CircD.nodes_mk] at h
  by_cases hreg : regUnitsOf (regsOf cu) = cu
  · rw [if_neg (by simp [hreg])] at h
    cases hex : exportNodes cu cn with
    | error e => rw [hex] at h; simp at h
    | ok gls =>
      rw [hex] at h
      simp only at h
      injection h with h
      subst h
      unfold importQasm
      rw [importLines_append]
      have hphase1 : importLines emptyCirc (regLinesOf (regsOf cu)) =
          .ok (.mk cu []) := by
        have hi := importLines_regLines (regsOf cu) [] []
          (by intro r hr u hu; exact absurd hu (List.not_mem_nil u))
          (by rw [regsOf_keys]; exact firstOccs_nodup _)
        rw [emptyCirc]
        rw [hi]
        simp [hreg]
      simp only [hphase1]
      have hgates := importLines_gates cu cn gls [] hex
      rw [hgates]
      simp
  · rw [if_pos (by simp [hreg])] at h
    simp at h

/-! ### The ASCII (Quipper) circuit-description format, import only (§4.7, §6)

Modelled from the spec: a program declares its typed wires and lists gate
invocation lines (name, optional inverse flag, operand wires, control
wires).  Gates with a direct primitive equivalent map to one node; gates
with no direct equivalent are translated through a fixed per-gate table
into an elementary-gate sequence; a gate with neither fails the import
with `UnsupportedGateError`.  Subroutine definitions are outside the
fragment modelled here. -/

/-- One gate invocation line of the ASCII format. -/
structure QuipLine where
  name : String
  inverted : Bool
  args : List Nat
  controls : List Nat
deriving DecidableEq, Repr

/-- A program: the declared number of quantum wires and the gate lines. -/
structure QuipProg where
  wires : Nat
  lines : List QuipLine
deriving DecidableEq, Repr

/-- Modelled from the spec (§4.7): direct primitive equivalents of external
gate names, keyed by name and control count. -/
def quipPrim : String → Nat → Option PrimGate
  | "H", 0 => some .H
  | "not", 0 => some .X
  | "not", 1 => some .CX
  | "X", 0 => some .X
  | "Y", 0 => some .Y
  | "Z", 0 => some .Z
  | "Z", 1 => some .CZ
  | "S", 0 => some .S
  | "T", 0 => some .T
  | "swap", 0 => some .SWAP
  | _, _ => none

/-- Inverse of a parameterless primitive gate. -/
def primInv : PrimGate → PrimGate
  | .S => .Sdg
  | .Sdg => .S
  | .T => .Tdg
  | .Tdg => .T
  | g => g

/-- Modelled from the spec (§4.7, §6): the fixed per-gate translation table
for externally defined gates with no direct primitive equivalent.  The
spec fixes the table's existence and that it covers gates such as `W` and
`omega`; the concrete elementary sequences below are representatives.
Each entry is a gate, its parameters, and operand positions into the
line's argument list. -/
def quipTable : String → Option (List (PrimGate × List Expr × List Nat))
  | "W" => some [(.CX, [], [1, 0]), (.H, [], [1]), (.CX, [], [1, 0])]
  | "omega" => some [(.Rz, [.lit (1/4)], [0])]
  | _ => none

/-- Inverse of one translation-table entry: inverse gate, negated angles. -/
def invEntry (e : PrimGate × List Expr × List Nat) : PrimGate × List Expr × List Nat :=
  (primInv e.1, e.2.1.map (fun p => Expr.sub (.lit 0) p), e.2.2)

/-- Inverse of a translated sequence: reversed, entries inverted. -/
def invSeq (s : List (PrimGate × List Expr × List Nat)) :
    List (PrimGate × List Expr × List Nat) :=
  (s.map invEntry).reverse

/-- A line is supported iff its name (with its control count) has a direct
primitive equivalent, or an uncontrolled translation-table entry. -/
def lineSupported (ln : QuipLine) : Bool :=
  (quipPrim ln.name ln.controls.length).isSome
    || ((quipTable ln.name).isSome && decide (ln.controls = []))

/-- Modelled from the spec (§4.7): the nodes one gate line contributes —
direct primitives become a single node, translated gates an explicit
elementary sequence; an untranslatable name fails with
`UnsupportedGateError`. -/
def quipLineNodes (wires : Nat) (ln : QuipLine) : Except Err (List Node) :=
  if ¬ ((ln.args ++ ln.controls).all (fun i => decide (i < wires))) then .error .parseError
  else
    match quipPrim ln.name ln.controls.length with
    | some g =>
      .ok [.mk (.prim (if ln.inverted then primInv g else g))
        ((ln.controls ++ ln.args).map qb) [] none]
    | none =>
      match quipTable ln.name with
      | some seq =>
        if ln.controls = [] then
          .ok ((if ln.inverted then invSeq seq else seq).map
            (fun e => .mk (.prim e.1) (e.2.2.map (fun i => qb (ln.args.getD i 0))) e.2.1 none))
        else .error (.unsupportedGate ln.name)
      | none => .error (.unsupportedGate ln.name)

def importQuipperLines (wires : Nat) : List QuipLine → Except Err (List Node)
  | [] => .ok []
  | ln :: rest =>
    match quipLineNodes wires ln, importQuipperLines wires rest with
    | .ok ns, .ok rest' => .ok (ns ++ rest')
    | .error e, _ => .error e
    | .ok _, .error e => .error e

/-- Modelled from the spec (§4.7): import a whole ASCII program. -/
def importQuipper (p : QuipProg) : Except Err CircD :=
  match importQuipperLines p.wires p.lines with
  | .ok ns => .ok (.mk ((List.range p.wires).map qb) ns)
  | .error e => .error e

/-- All wire references of a program are in range. -/
def quipWellFormed (p : QuipProg) : Bool :=
  p.lines.all (fun ln => (ln.args ++ ln.controls).all (fun i => decide (i < p.wires)))

theorem quipLineNodes_isOk (wires : Nat) (ln : QuipLine)
    (hwf : (ln.args ++ ln.controls).all (fun i => decide (i < wires)) = true) :
    (quipLineNodes wires ln).isOk = lineSupported ln := by
  unfold quipLineNodes lineSupported
  rw [if_neg (by simp [hwf])]
  cases hp : quipPrim ln.name ln.controls.length with
  | some g => simp [Except.isOk, Except.toBool]
  | none =>
    cases ht : quipTable ln.name with
    | some seq =>
      by_cases hc : ln.controls = []
      · simp [Except.isOk, Except.toBool, hc]
      · simp [Except.isOk, Except.toBool, hc]
    | none => simp [Except.isOk, Except.toBool]

theorem quipLineNodes_error (wires : Nat) (ln : QuipLine) (e : Err)
    (hwf : (ln.args ++ ln.controls).all (fun i => decide (i < wires)) = true)
    (h : quipLineNodes wires ln = .error e) : e = .unsupportedGate ln.name := by
  unfold quipLineNodes at h
  rw [if_neg (by simp [hwf])] at h
  cases hp : quipPrim ln.name ln.controls.length with
  | some g => rw [hp] at h; simp at h
  | none =>
    rw [hp] at h
    cases ht : quipTable ln.name with
    | some seq =>
      rw [ht] at h
      by_cases hc : ln.controls = []
      · simp [hc] at h
      · simp [hc] at h
        exact h.symm
    | none =>
      rw [ht] at h
      simp at h
      exact h.symm

theorem importQuipperLines_isOk (wires : Nat) (lines : List QuipLine)
    (hwf : lines.all (fun ln => (ln.args ++ ln.controls).all (fun i => decide (i < wires))) = true) :
    (importQuipperLines wires lines).isOk = lines.all lineSupported := by
  induction lines with
  | nil => simp [importQuipperLines, Except.isOk, Except.toBool]
  | cons ln rest ih =>
    simp only [List.all_cons, Bool.and_eq_true] at hwf
    rw [List.all_cons, ← quipLineNodes_isOk wires ln hwf.1, ← ih hwf.2]
    simp only [importQuipperLines]
    cases quipLineNodes wires ln <;> cases importQuipperLines wires rest <;>
      simp [Except.isOk, Except.toBool]

theorem importQuipperLines_error (wires : Nat) (lines : List QuipLine) (e : Err)
    (hwf : lines.all (fun ln => (ln.args ++ ln.controls).all (fun i => decide (i < wires))) = true)
    (h : importQuipperLines wires lines = .error e) :
    ∃ g, e = .unsupportedGate g := by
  induction lines with
  | nil => simp [importQuipperLines] at h
  | cons ln rest ih =>
    simp only [List.all_cons, Bool.and_eq_true] at hwf
    unfold importQuipperLines at h
    cases hn : quipLineNodes wires ln with
    | ok ns =>
      rw [hn] at h
      cases hr : importQuipperLines wires rest with
      | ok rest' => rw [hr] at h; simp at h
      | error e' =>
        rw [hr] at h
        injection h with h
        subst h
        exact ih hwf.2 hr
    | error e' =>
      rw [hn] at h
      injection h with h
      subst h
      exact ⟨ln.name, quipLineNodes_error wires ln e' hwf.1 hn⟩

/-! ### Matrix-defined boxes: construction-time validation (§4.2) -/

/-- Numerical tolerance for the unitarity check, as an exact rational. -/
def EPS : ℚ := 1 / 10 ^ 12

/-- The 2×2 identity matrix. -/
def mat2Id : Mat2 := ⟨⟨1, 0⟩, ⟨0, 0⟩, ⟨0, 0⟩, ⟨1, 0⟩⟩

/-- The product `m† * m`. -/
def mat2DaggerMul (m : Mat2) : Mat2 :=
  ⟨cqAdd (cqMul (cqConj m.a) m.a) (cqMul (cqConj m.c) m.c),
   cqAdd (cqMul (cqConj m.a) m.b) (cqMul (cqConj m.c) m.d),
   cqAdd (cqMul (cqConj m.b) m.a) (cqMul (cqConj m.d) m.c),
   cqAdd (cqMul (cqConj m.b) m.b) (cqMul (cqConj m.d) m.d)⟩

/-- Entrywise closeness within the tolerance. -/
def cqClose (z w : CQ) : Bool := decide (cqNormSq (cqSub z w) ≤ EPS)

/-- Modelled from the spec (§4.2): unitarity within a numerical tolerance,
checked as `m† m ≈ I`. -/
def isUnitary2 (m : Mat2) : Bool :=
  let p := mat2DaggerMul m
  cqClose p.a mat2Id.a && cqClose p.b mat2Id.b && cqClose p.c mat2Id.c && cqClose p.d mat2Id.d

/-- A validated 1-qubit unitary box: stores its defining matrix. -/
structure Unitary1qBox where
  mat : Mat2
deriving DecidableEq, Repr

/-- Modelled from the spec (§4.2): `Unitary1qBox` construction validates
the supplied matrix at construction time, failing with `NotUnitaryError`
when it is not unitary within tolerance. -/
def mkUnitary1qBox (m : Mat2) : Except Err Unitary1qBox :=
  if isUnitary2 m then .ok ⟨m⟩ else .error .notUnitary

/-- Modelled from the spec (§4.2): the box lazily materializes its
elementary-gate expansion through the synthesis collaborator. -/
def Unitary1qBox.boxCircuit (b : Unitary1qBox) : CircD := getCircuit (.u1 b.mat)

/-! ### Composition of substitutions on circuits -/

theorem substExprList_comp {m1 m2 : List (String × Expr)}
    (hrange : ∀ p ∈ m1, ∀ x ∈ symbolsOf p.2, x ∉ dom m2) (l : List Expr) :
    (l.map (substExpr m1)).map (substExpr m2) = l.map (substExpr (m1 ++ m2)) := by
  induction l with
  | nil => rfl
  | cons e es ih => simp [substExpr_substExpr hrange, ih]

theorem substOp_substOp {m1 m2 : List (String × Expr)}
    (hrange : ∀ p ∈ m1, ∀ x ∈ symbolsOf p.2, x ∉ dom m2) (o : Op) :
    substOp m2 (substOp m1 o) = substOp (m1 ++ m2) o := by
  cases o with
  | prim g => rfl
  | box b =>
    cases b with
    | circBox c => rfl
    | custom nm t s bnd => simp [substOp, substExprList_comp hrange]
    | u1 m => rfl
    | u2 m => rfl
    | expBox m t => simp [substOp, substExpr_substExpr hrange]
    | pauliExp ps t => simp [substOp, substExpr_substExpr hrange]

theorem substNode_substNode {m1 m2 : List (String × Expr)}
    (hrange : ∀ p ∈ m1, ∀ x ∈ symbolsOf p.2, x ∉ dom m2) (n : Node) :
    substNode m2 (substNode m1 n) = substNode (m1 ++ m2) n := by
  cases n with
  | mk o us ps cd =>
    simp [substNode, Node.op, Node.nunits, Node.params, Node.cond,
      substOp_substOp hrange, substExprList_comp hrange]

/-- Sequential circuit substitution equals simultaneous substitution of the
concatenated mapping, when no symbol of the second mapping's domain occurs
in the first mapping's targets. -/
theorem symbolSubstitution_seq {m1 m2 : List (String × Expr)}
    (hrange : ∀ p ∈ m1, ∀ x ∈ symbolsOf p.2, x ∉ dom m2) (c : CircD) :
    symbolSubstitution (symbolSubstitution c m1) m2 = symbolSubstitution c (m1 ++ m2) := by
  cases c with
  | mk us ns =>
    simp only [symbolSubstitution, CircD.units_mk, CircD.nodes_mk, List.map_map]
    congr 1
    induction ns with
    | nil => rfl
    | cons n rest ih =>
      simp only [List.map_cons, List.map_map] at ih ⊢
      rw [ih]
      simp [Function.comp, substNode_substNode hrange]

/-! ### Wire-chain facts about `append` -/

theorem chain_appendCirc (c1 c2 : CircD) (u : UnitId) :
    chain (appendCirc c1 c2) u = chain c1 u ++ chain c2 u := by
  cases c1 with
  | mk u1 n1 =>
    cases c2 with
    | mk u2 n2 => simp [chain, appendCirc, List.filter_append]

theorem chain_eq_nil_of_not_mem {c : CircD} {u : UnitId}
    (hwf : wfCirc c = true) (h : u ∉ c.units) : chain c u = [] := by
  unfold chain
  rw [List.filter_eq_nil_iff]
  intro n hn
  simp only [decide_eq_true_eq]
  intro hw
  unfold wfCirc at hwf
  rw [List.all_eq_true] at hwf
  have := hwf n hn
  rw [List.all_eq_true] at this
  have := this u hw
  simp at this
  exact h this

/-! ### Concrete example circuits and programs (from the notebook) -/

/-- The default classical register `m` used in the conditioning example. -/
def bmu (i : Nat) : UnitId := ⟨.bit, "m", [i]⟩

/-- The notebook's QASM example circuit, built through the gate-adding API:
`Circuit(3,1); H 0; CX 0 1; CX 1 2; Rz(0.25) 2; Measure 2 0`. -/
def qasmExBuild : Except Err CircD := do
  let c0 := initCirc 3 1
  let c1 ← addPrim c0 .H [] [.int 0] none
  let c2 ← addPrim c1 .CX [] [.int 0, .int 1] none
  let c3 ← addPrim c2 .CX [] [.int 1, .int 2] none
  let c4 ← addPrim c3 .Rz [.lit (1/4)] [.int 2] none
  addPrim c4 .Measure [] [.int 2, .int 0] none

/-- The same circuit, explicitly. -/
def qasmExC : CircD :=
  .mk [qb 0, qb 1, qb 2, cb 0]
    [.mk (.prim .H) [qb 0] [] none,
     .mk (.prim .CX) [qb 0, qb 1] [] none,
     .mk (.prim .CX) [qb 1, qb 2] [] none,
     .mk (.prim .Rz) [qb 2] [.lit (1/4)] none,
     .mk (.prim .Measure) [qb 2, cb 0] [] none]

/-- Its gate-list document: register declarations, then the five lines. -/
def qasmExDoc : List QasmLine :=
  [.qreg "q" 3, .creg "c" 1,
   .gate .H [] [qb 0] none,
   .gate .CX [] [qb 0, qb 1] none,
   .gate .CX [] [qb 1, qb 2] none,
   .gate .Rz [.lit (1/4)] [qb 2] none,
   .gate .Measure [] [qb 2, cb 0] none]

/-- A one-qubit circuit with a single symbolic `Rz(a)`. -/
def c3cex : CircD := .mk [qb 0] [.mk (.prim .Rz) [qb 0] [.sym "a"] none]

/-- A one-qubit circuit with `Rz(a + b)`, the notebook's substitution cell. -/
def c3wit : CircD :=
  .mk [qb 0] [.mk (.prim .Rz) [qb 0] [.add (.sym "a") (.sym "b")] none]

def c3m1 : List (String × Expr) := [("b", .mul (.lit 2) (.sym "a"))]

def c3m2 : List (String × Expr) := [("c", .lit 1)]

/-- A two-qubit CX circuit on the default register. -/
def apL : CircD := .mk [qb 0, qb 1] [.mk (.prim .CX) [qb 0, qb 1] [] none]

/-- A CZ circuit on disjoint named wires `x`, `y`. -/
def apR : CircD :=
  .mk [⟨.qubit, "x", []⟩, ⟨.qubit, "y", []⟩]
    [.mk (.prim .CZ) [⟨.qubit, "y", []⟩, ⟨.qubit, "x", []⟩] [] none]

/-- A circuit with one qubit and a 2-bit register `m`, before conditioning. -/
def c5base : CircD := .mk [qb 2, bmu 0, bmu 1] []

/-- The circuit after the conditioned `Rz`. -/
def c5res : CircD :=
  .mk [qb 2, bmu 0, bmu 1]
    [.mk (.prim .Rz) [qb 2] [.lit (1/2)] (some ⟨[bmu 0, bmu 1], 3⟩)]

/-- The notebook's `Rz(0.5)` node. -/
def rzHalf : Node := .mk (.prim .Rz) [qb 0] [.lit (1/2)] none

/-- The notebook's symbolic `Rz(a)` node. -/
def rzSymA : Node := .mk (.prim .Rz) [qb 0] [.sym "a"] none

/-- An `H` node, for the cancellation example. -/
def hNode : Node := .mk (.prim .H) [qb 0] [] none

/-- The notebook's Quipper program: `W(0,1); omega(1); swap(0,1); W*(1,0)`. -/
def quipEx : QuipProg :=
  ⟨2, [⟨"W", false, [0, 1], []⟩,
       ⟨"omega", false, [1], []⟩,
       ⟨"swap", false, [0, 1], []⟩,
       ⟨"W", true, [1, 0], []⟩]⟩

/-- The non-unitary matrix `[[1,1],[0,1]]`. -/
def mBad : Mat2 := ⟨⟨1, 0⟩, ⟨1, 0⟩, ⟨0, 0⟩, ⟨1, 0⟩⟩

/-- The unitary matrix `[[0,1],[1,0]]` (Pauli X). -/
def mGood : Mat2 := ⟨⟨0, 0⟩, ⟨1, 0⟩, ⟨1, 0⟩, ⟨0, 0⟩⟩

/-- The notebook's unit-insertion sequence: `Circuit(3,2)`, qubits
`alpha[0]`, `beta[2,1]`, `gamma[0,0,0]`, then register `delta` of size 4. -/
def nbBuild : Except Err CircD := do
  let c1 ← addUnit (initCirc 3 2) ⟨.qubit, "alpha", [0]⟩
  let c2 ← addUnit c1 ⟨.qubit, "beta", [2, 1]⟩
  let c3 ← addUnit c2 ⟨.qubit, "gamma", [0, 0, 0]⟩
  addRegister c3 "delta" 4 .qubit

/-- The resulting circuit, explicitly. -/
def nbC : CircD :=
  .mk [qb 0, qb 1, qb 2, cb 0, cb 1,
       ⟨.qubit, "alpha", [0]⟩, ⟨.qubit, "beta", [2, 1]⟩, ⟨.qubit, "gamma", [0, 0, 0]⟩,
       ⟨.qubit, "delta", [0]⟩, ⟨.qubit, "delta", [1]⟩, ⟨.qubit, "delta", [2]⟩,
       ⟨.qubit, "delta", [3]⟩] []

theorem filter_qubits_of_qb (l : List Nat) :
    (l.map qb).filter (fun u => decide (u.kind = .qubit)) = l.map qb := by
  induction l with
  | nil => rfl
  | cons i is ih => simp [qb, ih]

theorem filter_qubits_of_cb (l : List Nat) :
    (l.map cb).filter (fun u => decide (u.kind = .qubit)) = [] := by
  induction l with
  | nil => rfl
  | cons i is ih => simp [cb, ih]

theorem filter_bits_of_qb (l : List Nat) :
    (l.map qb).filter (fun u => decide (u.kind = .bit)) = [] := by
  induction l with
  | nil => rfl
  | cons i is ih => simp [qb, ih]

theorem filter_bits_of_cb (l : List Nat) :
    (l.map cb).filter (fun u => decide (u.kind = .bit)) = l.map cb := by
  induction l with
  | nil => rfl
  | cons i is ih => simp [cb, ih]

theorem sortUnits_of_pairwise {l : List UnitId}
    (h : List.Pairwise (fun a b => unitLe a b = true) l) : sortUnits l = l := by
  induction l with
  | nil => rfl
  | cons u rest ih =>
    rw [List.pairwise_cons] at h
    show insUnit u (sortUnits rest) = u :: rest
    rw [ih h.2]
    cases rest with
    | nil => rfl
    | cons v vs => simp [insUnit, h.1 v (List.mem_cons_self v vs)]

theorem unitLe_qb {i j : Nat} (h : i ≤ j) : unitLe (qb i) (qb j) = true := by
  rcases Nat.lt_or_ge i j with hlt | hge
  · simp [unitLe, qb, natListLe, hlt]
  · have heq : i = j := Nat.le_antisymm h hge
    subst heq
    simp [unitLe, qb, natListLe]

theorem unitLe_cb {i j : Nat} (h : i ≤ j) : unitLe (cb i) (cb j) = true := by
  rcases Nat.lt_or_ge i j with hlt | hge
  · simp [unitLe, cb, natListLe, hlt]
  · have heq : i = j := Nat.le_antisymm h hge
    subst heq
    simp [unitLe, cb, natListLe]

theorem pairwise_unitLe_qb_range (n : Nat) :
    List.Pairwise (fun a b => unitLe a b = true) ((List.range n).map qb) := by
  rw [List.pairwise_map]
  exact (List.sorted_lt_range n).imp (fun h => unitLe_qb (Nat.le_of_lt h))

theorem pairwise_unitLe_cb_range (n : Nat) :
    List.Pairwise (fun a b => unitLe a b = true) ((List.range n).map cb) := by
  rw [List.pairwise_map]
  exact (List.sorted_lt_range n).imp (fun h => unitLe_cb (Nat.le_of_lt h))

/-! ### The claims -/

/-- C1: for every circuit containing only constructs expressible in the
gate-list text format — made precise as: whenever export succeeds — the
imported exported document yields a circuit equal to the original
under the §4.1 equality (unit lists, per-unit wire chains, register
layouts); the 3-qubit, 1-bit example circuit is the witness below. -/
theorem qasm_round_trip (c : CircD) (doc : List QasmLine)
    (h : exportQasm c = .ok doc) :
    ∃ c', importQasm doc = .ok c' ∧ circEq c' c = true :=
  ⟨c, exportQasm_importQasm h, circEq_refl c⟩

theorem qasm_round_trip_check :
    qasmExBuild = .ok qasmExC ∧ exportQasm qasmExC = .ok qasmExDoc ∧
      ∃ c', importQasm qasmExDoc = .ok c' ∧ circEq c' qasmExC = true :=
  ⟨rfl, rfl, qasm_round_trip qasmExC qasmExDoc rfl⟩

/-- C2: `DecomposeBoxes` is idempotent, the result contains no box or
custom-gate nodes, and every node is replaced by its decomposed expansion
spliced at the node's position. -/
theorem decompose_boxes_spec (c : CircD) :
    decomposeBoxes (decomposeBoxes c) = decomposeBoxes c ∧
      circBoxFree (decomposeBoxes c) = true ∧
      (decomposeBoxes c).nodes = c.nodes.flatMap decomposeNode := by
  refine ⟨decomposeBoxes_idem c, ?_, ?_⟩
  · cases c with
    | mk us ns => simpa [circBoxFree, decomposeBoxes] using decomposeNodes_boxFree ns
  · cases c with
    | mk us ns => simp [decomposeBoxes, decomposeNodes_eq_flatMap]

/-- C3 (counterexample): disjoint domains alone do not make sequential
substitution equal to substitution of the union — with `m1 = {a ↦ b}` and
`m2 = {b ↦ 1}` the domains are disjoint, yet on the circuit `Rz(a)` the
sequential result is `Rz(1)` while the union gives `Rz(b)`. -/
theorem symbol_substitution_union_cex :
    (∀ s ∈ dom [("a", Expr.sym "b")], s ∉ dom [("b", Expr.lit 1)]) ∧
      circEq
        (symbolSubstitution (symbolSubstitution c3cex [("a", Expr.sym "b")])
          [("b", Expr.lit 1)])
        (symbolSubstitution c3cex ([("a", Expr.sym "b")] ++ [("b", Expr.lit 1)])) = false := by
  constructor
  · decide
  · have h1 : symbolSubstitution (symbolSubstitution c3cex [("a", Expr.sym "b")])
        [("b", Expr.lit 1)] =
        .mk [qb 0] [.mk (.prim .Rz) [qb 0] [.lit 1] none] := rfl
    have h2 : symbolSubstitution c3cex ([("a", Expr.sym "b")] ++ [("b", Expr.lit 1)]) =
        .mk [qb 0] [.mk (.prim .Rz) [qb 0] [.sym "b"] none] := rfl
    rw [h1, h2]
    simp [circEq, chain, Node.wires, Node.nunits, Node.condBits, Node.cond, Node.op,
      Node.params, chainEq, nodeEntryEq, opBEq, paramsEq, pequiv, norm]

/-- C3 (amended): sequential application of `symbol_substitution(m1)` then
`symbol_substitution(m2)` equals one application of the union, when the
domains are disjoint AND no symbol of `m2`'s domain occurs in a target
expression of `m1` (the counterexample shows the second condition is
necessary). -/
theorem symbol_substitution_union (c : CircD) (m1 m2 : List (String × Expr))
    (hdisj : ∀ s ∈ dom m1, s ∉ dom m2)
    (hrange : ∀ p ∈ m1, ∀ x ∈ symbolsOf p.2, x ∉ dom m2) :
    circEq (symbolSubstitution (symbolSubstitution c m1) m2)
      (symbolSubstitution c (m1 ++ m2)) = true := by
  rw [symbolSubstitution_seq hrange]
  exact circEq_refl _

theorem symbol_substitution_union_check :
    (∀ s ∈ dom c3m1, s ∉ dom c3m2) ∧
      (∀ p ∈ c3m1, ∀ x ∈ symbolsOf p.2, x ∉ dom c3m2) ∧
      circEq (symbolSubstitution (symbolSubstitution c3wit c3m1) c3m2)
        (symbolSubstitution c3wit (c3m1 ++ c3m2)) = true ∧
      pequiv (substExpr c3m1 (Expr.add (.sym "a") (.sym "b")))
        (Expr.mul (.lit 3) (.sym "a")) = true :=
  ⟨by decide, by decide,
    symbol_substitution_union c3wit c3m1 c3m2 (by decide) (by decide), by decide⟩

/-- C4: `append` composes serially on shared units (the argument's chain
follows the receiver's), materializes the argument's missing units as
fresh wires in insertion order, and on disjoint unit sets is pure parallel
composition: node counts add and every unit keeps exactly its own
circuit's wire chain (no cross-wire ordering constraints). -/
theorem append_parallel_spec (c1 c2 : CircD) :
    ((appendCirc c1 c2).units = c1.units ++ c2.units.filter (fun u => ¬ (u ∈ c1.units))) ∧
      ((appendCirc c1 c2).nodes.length = c1.nodes.length + c2.nodes.length) ∧
      (∀ u, chain (appendCirc c1 c2) u = chain c1 u ++ chain c2 u) ∧
      ((∀ u ∈ c1.units, ¬ (u ∈ c2.units)) → wfCirc c1 = true → wfCirc c2 = true →
        (∀ u ∈ c1.units, chain (appendCirc c1 c2) u = chain c1 u) ∧
        (∀ u ∈ c2.units, chain (appendCirc c1 c2) u = chain c2 u)) := by
  refine ⟨?_, ?_, chain_appendCirc c1 c2, ?_⟩
  · cases c1; cases c2; rfl
  · cases c1; cases c2; simp [appendCirc]
  · intro hdisj hwf1 hwf2
    constructor
    · intro u hu
      rw [chain_appendCirc, chain_eq_nil_of_not_mem hwf2 (hdisj u hu), List.append_nil]
    · intro u hu
      have hnot1 : ¬ (u ∈ c1.units) := fun h1 => hdisj u h1 hu
      rw [chain_appendCirc, chain_eq_nil_of_not_mem hwf1 hnot1, List.nil_append]

theorem append_parallel_check :
    (∀ u ∈ apL.units, ¬ (u ∈ apR.units)) ∧ wfCirc apL = true ∧ wfCirc apR = true ∧
      ((∀ u ∈ apL.units, chain (appendCirc apL apR) u = chain apL u) ∧
       (∀ u ∈ apR.units, chain (appendCirc apL apR) u = chain apR u)) :=
  ⟨by decide, by decide, by decide,
    (append_parallel_spec apL apR).2.2.2 (by decide) (by decide) (by decide)⟩

/-- C5: a node added by `add_gate` with condition bits and a condition
value carries exactly that condition, and the condition holds iff the
bits' runtime values, read as an unsigned integer with the first bit least
significant, equal the value: with bits `[m0, m1]`, value 3 requires both
to read 1, and value 2 is satisfied exactly by `m0 = 0, m1 = 1`. -/
theorem conditional_gate_spec :
    (∀ c g ps us bits v c', addGateCond c g ps us bits v = .ok c' →
        c'.units = c.units ∧ c'.nodes = c.nodes ++ [.mk (.prim g) us ps (some ⟨bits, v⟩)]) ∧
      (∀ m0 m1 vals, condHolds ⟨[m0, m1], 3⟩ vals = (vals m0 && vals m1)) ∧
      (∀ m0 m1 vals, condHolds ⟨[m0, m1], 2⟩ vals = (!vals m0 && vals m1)) := by
  refine ⟨?_, ?_, ?_⟩
  · intro c g ps us bits v c' h
    unfold addGateCond addOperation at h
    split at h
    · exact absurd h (by simp)
    · split at h
      · exact absurd h (by simp)
      · injection h with h
        subst h
        exact ⟨rfl, rfl⟩
  · intro m0 m1 vals
    cases h0 : vals m0 <;> cases h1 : vals m1 <;>
      simp [condHolds, bitsToNat, h0, h1]
  · intro m0 m1 vals
    cases h0 : vals m0 <;> cases h1 : vals m1 <;>
      simp [condHolds, bitsToNat, h0, h1]

theorem conditional_gate_check :
    (c5res.units = c5base.units ∧
      c5res.nodes = c5base.nodes ++
        [.mk (.prim .Rz) [qb 2] [.lit (1/2)] (some ⟨[bmu 0, bmu 1], 3⟩)]) ∧
      condHolds ⟨[bmu 0, bmu 1], 3⟩ (fun _ => true) = true :=
  ⟨conditional_gate_spec.1 c5base .Rz [.lit (1/2)] [qb 2] [bmu 0, bmu 1] 3 c5res rfl,
    by rw [conditional_gate_spec.2.1 (bmu 0) (bmu 1) (fun _ => true)]; rfl⟩

/-- C6: `RemoveRedundancies` merges adjacent same-axis rotation gates on
identical operands by summing their (possibly symbolic) angles, cancels
adjacent inverse gate pairs, and never reorders operations: the output is
an order-preserving reduction of the input node list. -/
theorem remove_redundancies_spec :
    (∀ n1 n2, mergeable n1 n2 = true → rr [n1, n2] = [mergeNodes n1 n2]) ∧
      (∀ n1 n2, invPair n1 n2 = true → rr [n1, n2] = []) ∧
      (∀ c : CircD, Reduces c.nodes (removeRedundancies c).nodes) ∧
      (∀ (u : UnitId) (p q : Expr),
        mergeNodes (.mk (.prim .Rz) [u] [p] none) (.mk (.prim .Rz) [u] [q] none) =
          .mk (.prim .Rz) [u] [Expr.add p q] none) := by
  refine ⟨fun n1 n2 => rr_merge_pair, fun n1 n2 => rr_cancel_pair, ?_, fun u p q => rfl⟩
  intro c
  cases c with
  | mk us ns => exact rr_reduces ns

theorem remove_redundancies_check :
    mergeable rzHalf rzSymA = true ∧
      rr [rzHalf, rzSymA] = [mergeNodes rzHalf rzSymA] ∧
      mergeNodes rzHalf rzSymA =
        .mk (.prim .Rz) [qb 0] [Expr.add (.lit (1/2)) (.sym "a")] none ∧
      invPair hNode hNode = true ∧ rr [hNode, hNode] = [] :=
  ⟨by decide, remove_redundancies_spec.1 rzHalf rzSymA (by decide), rfl,
    by decide, remove_redundancies_spec.2.1 hNode hNode (by decide)⟩

/-- C7: importing the ASCII (Quipper) format translates externally-defined
gates with no direct primitive equivalent (such as `W`, `omega`) through
the fixed per-gate table instead of rejecting them: on an in-range
program, import succeeds exactly when every line is supported, and every
failure of the import is an `UnsupportedGateError`. -/
theorem quipper_import_spec (p : QuipProg) (hwf : quipWellFormed p = true) :
    ((importQuipper p).isOk = p.lines.all lineSupported) ∧
      (∀ e, importQuipper p = .error e → ∃ g, e = .unsupportedGate g) := by
  unfold quipWellFormed at hwf
  constructor
  · unfold importQuipper
    cases h : importQuipperLines p.wires p.lines with
    | ok ns =>
      have hl := importQuipperLines_isOk p.wires p.lines hwf
      rw [h] at hl
      simp [Except.isOk, Except.toBool] at hl ⊢
      exact hl
    | error e =>
      have hl := importQuipperLines_isOk p.wires p.lines hwf
      rw [h] at hl
      simp [Except.isOk, Except.toBool] at hl ⊢
      exact hl
  · intro e he
    unfold importQuipper at he
    cases h : importQuipperLines p.wires p.lines with
    | ok ns => rw [h] at he; simp at he
    | error e' =>
      rw [h] at he
      injection he with he
      subst he
      exact importQuipperLines_error p.wires p.lines e' hwf h

theorem quipper_import_check :
    quipWellFormed quipEx = true ∧
      (importQuipper quipEx).isOk = quipEx.lines.all lineSupported ∧
      quipEx.lines.all lineSupported = true ∧ (importQuipper quipEx).isOk = true :=
  ⟨rfl, (quipper_import_spec quipEx rfl).1, rfl, rfl⟩

/-- C8: `Unitary1qBox` construction validates unitarity (within tolerance)
of the supplied 2×2 matrix at construction time, failing with
`NotUnitaryError`; every matrix that passes is stored in the box, whose
expansion is materialized on demand by `get_circuit()` through the
synthesis collaborator. -/
theorem unitary1qbox_validation (m : Mat2) :
    (isUnitary2 m = false → mkUnitary1qBox m = .error .notUnitary) ∧
      (isUnitary2 m = true →
        mkUnitary1qBox m = .ok ⟨m⟩ ∧
        Unitary1qBox.boxCircuit ⟨m⟩ = .mk [qb 0] (synthU1 m)) := by
  constructor
  · intro h
    unfold mkUnitary1qBox
    rw [if_neg (by simp [h])]
  · intro h
    constructor
    · unfold mkUnitary1qBox
      rw [if_pos h]
    · rfl

theorem unitary1qbox_validation_check :
    isUnitary2 mBad = false ∧ mkUnitary1qBox mBad = .error .notUnitary ∧
      isUnitary2 mGood = true ∧ mkUnitary1qBox mGood = .ok ⟨mGood⟩ ∧
      Unitary1qBox.boxCircuit ⟨mGood⟩ = .mk [qb 0] (synthU1 mGood) :=
  ⟨by decide, (unitary1qbox_validation mBad).1 (by decide), by decide,
    ((unitary1qbox_validation mGood).2 (by decide)).1,
    ((unitary1qbox_validation mGood).2 (by decide)).2⟩

/-- C9 (counterexample): the displayed qubit listing does NOT preserve
insertion order.  At the claim's exact scenario — default `q[0..2]`, then
`alpha[0]`, `beta[2,1]`, `gamma[0,0,0]`, then register `delta` of size 4 —
the displayed list differs from the insertion order: the notebook's
recorded output shows `delta`, added last, before `gamma` and `q`, and
`q`, created first, last. -/
theorem unit_insertion_order_cex :
    nbBuild = .ok nbC ∧
      ¬ (nbC.qubits =
        [qb 0, qb 1, qb 2,
         ⟨.qubit, "alpha", [0]⟩, ⟨.qubit, "beta", [2, 1]⟩, ⟨.qubit, "gamma", [0, 0, 0]⟩,
         ⟨.qubit, "delta", [0]⟩, ⟨.qubit, "delta", [1]⟩, ⟨.qubit, "delta", [2]⟩,
         ⟨.qubit, "delta", [3]⟩]) :=
  ⟨rfl, by decide⟩

/-- C9 (amended): duplicates are forbidden (`add_unit` of a present unit
fails with `DuplicateUnitError`), and the displayed qubit listing is
sorted by unit id — register name, then index tuple, the §3 total order —
so the notebook's insertion sequence displays
`alpha, beta, delta[0..3], gamma, q[0..2]`, exactly its recorded output. -/
theorem unit_insertion_order :
    (∀ c u, u ∈ c.units → addUnit c u = .error .duplicateUnit) ∧
      nbBuild = .ok nbC ∧
      nbC.qubits =
        [⟨.qubit, "alpha", [0]⟩, ⟨.qubit, "beta", [2, 1]⟩,
         ⟨.qubit, "delta", [0]⟩, ⟨.qubit, "delta", [1]⟩, ⟨.qubit, "delta", [2]⟩,
         ⟨.qubit, "delta", [3]⟩, ⟨.qubit, "gamma", [0, 0, 0]⟩,
         qb 0, qb 1, qb 2] := by
  refine ⟨?_, rfl, by decide⟩
  intro c u hu
  unfold addUnit
  rw [if_pos hu]

theorem unit_insertion_order_check :
    qb 0 ∈ nbC.units ∧ addUnit nbC (qb 0) = .error .duplicateUnit :=
  ⟨by decide, unit_insertion_order.1 nbC (qb 0) (by decide)⟩

/-- C10: `Circuit(n, m)` creates exactly the default registers
`q[0..n-1]` and `c[0..m-1]`; integer arguments to gate-adding calls
resolve positionally to default-register units (`q[i]`, or `c[i]` at
classical positions as in `Measure`); mixing integer shorthand and
explicit units in one call fails with `UnsupportedMixedAddressingError`. -/
theorem default_register_shorthand (n m : Nat) :
    ((initCirc n m).units = (List.range n).map qb ++ (List.range m).map cb) ∧
      ((initCirc n m).qubits = (List.range n).map qb) ∧
      ((initCirc n m).bits = (List.range m).map cb) ∧
      (∀ c i j, addPrim c .CX [] [.int i, .int j] none =
        addOperation c (.prim .CX) [qb i, qb j] [] none) ∧
      (∀ c i j, addPrim c .Measure [] [.int i, .int j] none =
        addOperation c (.prim .Measure) [qb i, cb j] [] none) ∧
      (∀ c g ps args cond, args.any Arg.isInt = true →
        args.any (fun a => !a.isInt) = true →
        addPrim c g ps args cond = .error .mixedAddressing) := by
  refine ⟨rfl, ?_, ?_, fun c i j => rfl, fun c i j => rfl, ?_⟩
  · show sortUnits (((List.range n).map qb ++ (List.range m).map cb).filter
      (fun u => decide (u.kind = .qubit))) = (List.range n).map qb
    rw [List.filter_append, filter_qubits_of_qb, filter_qubits_of_cb, List.append_nil]
    exact sortUnits_of_pairwise (pairwise_unitLe_qb_range n)
  · show sortUnits (((List.range n).map qb ++ (List.range m).map cb).filter
      (fun u => decide (u.kind = .bit))) = (List.range m).map cb
    rw [List.filter_append, filter_bits_of_qb, filter_bits_of_cb, List.nil_append]
    exact sortUnits_of_pairwise (pairwise_unitLe_cb_range m)
  · intro c g ps args cond h1 h2
    unfold addPrim
    rw [if_pos (by simp [h1, h2])]

theorem default_register_shorthand_check :
    ([Arg.int 0, Arg.unit (qb 1)].any Arg.isInt = true) ∧
      ([Arg.int 0, Arg.unit (qb 1)].any (fun a => !a.isInt) = true) ∧
      addPrim (initCirc 2 0) .CX [] [Arg.int 0, Arg.unit (qb 1)] none =
        .error .mixedAddressing :=
  ⟨by decide, by decide,
    (default_register_shorthand 2 0).2.2.2.2.2 (initCirc 2 0) .CX [] [.int 0, .unit (qb 1)]
      none (by decide) (by decide)⟩

end Tket
